import Mathlib

/-!
Shallow embedding of the STI sprite-collection editing core:
the editable sprite data model, pixel painting, the undo/redo history log
(`ImageEditor.tsx`), and the frame list's staging / selection logic
(`ImageList.tsx`), together with proofs of the stated properties.
-/

/-! ## Data model (src/types/sti.ts) -/

/-- One editable frame: dimensions plus the raw sample array
(palette indices for 8-bit, RGB565 bytes for 16-bit). -/
structure EditableImage where
  width : Nat
  height : Nat
  data : List Nat
deriving Repr, DecidableEq

/-- The editable sprite file: color-mode flags, optional palette of RGB
triples, the ordered frames, transparency and flag metadata. -/
structure EditableStiFile where
  file_path : String
  is_8bit : Bool
  is_16bit : Bool
  palette : Option (List (Nat × Nat × Nat))
  images : List EditableImage
  transparent_color : Nat
  flags : Nat
deriving Repr, DecidableEq

/-- The paint tools of `ImageEditor.tsx`. -/
inductive ToolType where
  | brush
  | eraser
  | fill
  | eyedropper
  | pan
deriving Repr, DecidableEq

/-- Default frame used to state lookups totally. -/
def dummyImage : EditableImage := { width := 0, height := 0, data := [] }

/-- JavaScript array index assignment `arr[i] = v` on a copied array:
in range it replaces the element; past the end it extends the array
(the intermediate holes read as `undefined`, modelled here as 0).
All verified call sites stay in range, where this agrees with `List.set`. -/
def jsArraySet (l : List Nat) (i : Nat) (v : Nat) : List Nat :=
  if i < l.length then l.set i v
  else l ++ List.replicate (i - l.length) 0 ++ [v]

/-! ## PixelPainter (ImageEditor.tsx, `paintPixel`) -/

/-- `paintPixel(x, y)`: copies the current frame's data, writes according to
the tool and color mode, and replaces only the current frame in the image
list.  `currentImage` is `editableSti.images[currentImageIndex]`; an absent
index would fault in the source, so it is guarded here and leaves the file
unchanged. -/
def paintPixel (sti : EditableStiFile) (currentImageIndex : Nat) (tool : ToolType)
    (selectedColor : Nat) (x y : Nat) : EditableStiFile :=
  match sti.images[currentImageIndex]? with
  | none => sti
  | some currentImage =>
    let newImageData :=
      if sti.is_8bit then
        -- 8-bit indexed: one palette-index byte per pixel
        let dataIndex := y * currentImage.width + x
        match tool with
        | ToolType.brush => jsArraySet currentImage.data dataIndex selectedColor
        | ToolType.eraser => jsArraySet currentImage.data dataIndex 0
        | _ => currentImage.data
      else
        -- 16-bit RGB565: two bytes per pixel, written only by the brush
        -- when the selected palette entry exists
        let dataIndex := (y * currentImage.width + x) * 2
        match tool, sti.palette with
        | ToolType.brush, some palette =>
          if selectedColor < palette.length then
            let color := palette.getD selectedColor (0, 0, 0)
            let r := color.1 / 8
            let g := color.2.1 / 4
            let b := color.2.2 / 8
            let rgb565 := (r <<< 11) ||| (g <<< 5) ||| b
            jsArraySet (jsArraySet currentImage.data dataIndex (rgb565 &&& 0xFF))
              (dataIndex + 1) ((rgb565 >>> 8) &&& 0xFF)
          else currentImage.data
        | _, _ => currentImage.data
    let updatedImage : EditableImage := { currentImage with data := newImageData }
    { sti with
      images := sti.images.mapIdx (fun i img =>
        if i = currentImageIndex then updatedImage else img) }

/-- The eyedropper branch of `handleMouseDown`: in 8-bit mode it reads the
sample at the clicked coordinate and makes it the new selected color; in any
other mode it does nothing, so the selected color is returned unchanged.
The source reads `currentImage.data[dataIndex]` unchecked; every verified
use is in range, where `getD _ 0` agrees with it. -/
def eyedropperPick (sti : EditableStiFile) (currentImageIndex : Nat)
    (x y : Nat) (selectedColor : Nat) : Nat :=
  if sti.is_8bit then
    match sti.images[currentImageIndex]? with
    | some currentImage => currentImage.data.getD (y * currentImage.width + x) 0
    | none => selectedColor
  else selectedColor

/-! ## Coordinate mapping (ImageEditor.tsx, `getPixelCoordinates`) -/

/-- The raw pixel coordinate computed by `getPixelCoordinates` before its
bounds check: `Math.floor((canvas - image origin) / zoom)` in each axis,
with `imageX = (canvas.width - W * zoom) / 2 + pan.x`.  Numerator and
denominator are doubled so the `/ 2` stays exact over the integers, and
`Int.fdiv` is the floor division `Math.floor` performs.  `canvasX` and
`canvasY` are `clientX - rect.left` and `clientY - rect.top`. -/
def computePixel (W H zoom panX panY canvasW canvasH canvasX canvasY : Int) :
    Int × Int :=
  (Int.fdiv (2 * canvasX - (canvasW - W * zoom) - 2 * panX) (2 * zoom),
   Int.fdiv (2 * canvasY - (canvasH - H * zoom) - 2 * panY) (2 * zoom))

/-- `getPixelCoordinates`: returns the pixel coordinate when it lies inside
the frame, `null` (here `none`) otherwise. -/
def getPixelCoordinates (W H zoom panX panY canvasW canvasH canvasX canvasY : Int) :
    Option (Int × Int) :=
  let p := computePixel W H zoom panX panY canvasW canvasH canvasX canvasY
  if 0 ≤ p.1 ∧ p.1 < W ∧ 0 ≤ p.2 ∧ p.2 < H then some p else none

/-- The drawing branch of `handleMouseMove`: map the mouse position to a
pixel coordinate and paint there; when `getPixelCoordinates` yields `null`
nothing happens. -/
def handleMouseMovePaint (sti : EditableStiFile) (currentImageIndex : Nat)
    (tool : ToolType) (selectedColor : Nat)
    (zoom panX panY canvasW canvasH canvasX canvasY : Int) : EditableStiFile :=
  match sti.images[currentImageIndex]? with
  | none => sti
  | some currentImage =>
    match getPixelCoordinates (currentImage.width : Int) (currentImage.height : Int)
        zoom panX panY canvasW canvasH canvasX canvasY with
    | some p => paintPixel sti currentImageIndex tool selectedColor p.1.toNat p.2.toNat
    | none => sti

/-! ## HistoryManager (ImageEditor.tsx, `saveToHistory` / `handleUndo` / `handleRedo`) -/

/-- One history entry: a deep copy of the whole editable file plus the
then-active frame index, timestamp and action label. -/
structure HistoryState where
  editableSti : EditableStiFile
  currentImageIndex : Nat
  timestamp : Nat
  actionDescription : String
deriving Repr, DecidableEq

/-- The history log: the entry sequence plus the cursor. -/
structure HistoryLog where
  history : List HistoryState
  index : Nat
deriving Repr, DecidableEq

/-- `saveToHistory`: drop the entries strictly after the cursor, append the
new state, put the cursor on the new last entry, and when the length then
exceeds 50 shift the oldest entry off and set the cursor to 49.
(The `isHistoryAction` guard of the source only suppresses re-entrant calls
while an undo/redo is being applied; a snapshot call is always made in the
recording state, which is what this function models.) -/
def saveToHistory (log : HistoryLog) (newState : HistoryState) : HistoryLog :=
  let newHistory := log.history.take (log.index + 1) ++ [newState]
  if newHistory.length > 50 then
    { history := newHistory.drop 1, index := 49 }
  else
    { history := newHistory, index := newHistory.length - 1 }

/-- `handleUndo`: at cursor 0 a no-op; otherwise decrement the cursor and
hand the entry now at the cursor to the caller for installation.  The
source reads `history[historyIndex - 1]` unchecked; the lookup is exposed
as an `Option`. -/
def handleUndo (log : HistoryLog) : Option HistoryState × HistoryLog :=
  if log.index = 0 then (none, log)
  else (log.history[log.index - 1]?, { log with index := log.index - 1 })

/-- `handleRedo`: a no-op at the last entry (`historyIndex >= length - 1`);
otherwise increment the cursor and hand over the entry now at the cursor. -/
def handleRedo (log : HistoryLog) : Option HistoryState × HistoryLog :=
  if log.history.length ≤ log.index + 1 then (none, log)
  else (log.history[log.index + 1]?, { log with index := log.index + 1 })

/-! ## ReorderStagingEngine (ImageList.tsx) -/

/-- The reorder staging state of `ImageList`, together with the
authoritative frame order held by the persistence service: the latter is
changed only by the `reorderImages` call inside `handleSaveChanges`. -/
structure ReorderSession where
  /-- the frame order of the on-disk file, as a list of frame ids -/
  authoritativeOrder : List Nat
  /-- `originalOrder`: the last-committed order the staged order is diffed against -/
  originalOrder : List Nat
  /-- `stagedOrder`: the tentative order shown in the list -/
  stagedOrder : List Nat
  /-- `hasUnsavedChanges`: the dirty flag -/
  hasUnsavedChanges : Bool
deriving Repr, DecidableEq

/-- `arraysEqual`: length check plus element-wise `===` comparison. -/
def arraysEqual (arr1 arr2 : List Nat) : Bool :=
  arr1.length == arr2.length &&
    arr1.enum.all (fun p => arr2[p.1]? == some p.2)

/-- `applyStagedReorder(newOrder)`: replaces the staged order and recomputes
the dirty flag as inequality with the last-committed order.  No validation
of any kind is performed on `newOrder`. -/
def applyStagedReorder (s : ReorderSession) (newOrder : List Nat) : ReorderSession :=
  { s with
    stagedOrder := newOrder
    hasUnsavedChanges := !arraysEqual newOrder s.originalOrder }

/-- `handleCancelChanges`: restore the staged order from the last-committed
order and clear the dirty flag.  No persistence call occurs. -/
def handleCancelChanges (s : ReorderSession) : ReorderSession :=
  { s with stagedOrder := s.originalOrder, hasUnsavedChanges := false }

/-- Reorder a list of frame ids by a staged permutation of positions. -/
def applyOrder (frames : List Nat) (order : List Nat) : List Nat :=
  order.filterMap (fun i => frames[i]?)

/-- `handleSaveChanges` (confirmed path): a no-op when the dirty flag is
clear; otherwise the staged order is persisted through `reorderImages`,
`originalOrder` is set to the staged order and the dirty flag cleared. -/
def handleSaveChanges (s : ReorderSession) : ReorderSession :=
  if s.hasUnsavedChanges then
    { s with
      authoritativeOrder := applyOrder s.authoritativeOrder s.stagedOrder
      originalOrder := s.stagedOrder
      hasUnsavedChanges := false }
  else s

/-! ## SelectionController (ImageList.tsx / App.tsx) -/

/-- The per-image metadata rows of `ImageList`. -/
structure ImageMetadata where
  index : Nat
  width : Nat
  height : Nat
deriving Repr, DecidableEq

/-- The selection state: the selected original indices plus the
last-touched index used as the range anchor. -/
structure SelectionState where
  selectedImages : List Nat
  lastSelectedIndex : Option Nat
deriving Repr, DecidableEq

/-- `handleImageToggleSelect` (App.tsx): remove the index when present,
append it otherwise. -/
def onImageToggleSelect (sel : List Nat) (i : Nat) : List Nat :=
  if i ∈ sel then sel.filter (fun j => j ≠ i) else sel ++ [i]

/-- `getCurrentDisplayOrder`: the staged order resolved to metadata rows,
dropping ids with no metadata (the source's `.find(...)!` then
`.filter(Boolean)`). -/
def getCurrentDisplayOrder (stagedOrder : List Nat)
    (imageMetadata : List ImageMetadata) : List ImageMetadata :=
  (stagedOrder.map (fun o => imageMetadata.find? (fun img => img.index == o))).filterMap id

/-- `handleRangeSelection(endIndex)`: a no-op without an anchor; otherwise
both the anchor and the clicked index are resolved to positions in the
current display order (a no-op if either is absent), and every index in the
inclusive span of display positions that is not yet selected is toggled in
(`slice(min, max + 1)`); finally the anchor moves to the clicked index. -/
def handleRangeSelection (stagedOrder : List Nat) (imageMetadata : List ImageMetadata)
    (st : SelectionState) (endIndex : Nat) : SelectionState :=
  match st.lastSelectedIndex with
  | none => st
  | some lastIdx =>
    let currentDisplayOrder := getCurrentDisplayOrder stagedOrder imageMetadata
    match currentDisplayOrder.findIdx? (fun img => img.index == lastIdx),
        currentDisplayOrder.findIdx? (fun img => img.index == endIndex) with
    | some startDisplayIndex, some endDisplayIndex =>
      let mn := min startDisplayIndex endDisplayIndex
      let mx := max startDisplayIndex endDisplayIndex
      let rangeIndices :=
        ((currentDisplayOrder.drop mn).take (mx + 1 - mn)).map (fun img => img.index)
      let newSel := rangeIndices.foldl
        (fun acc i => if i ∈ st.selectedImages then acc else onImageToggleSelect acc i)
        st.selectedImages
      { selectedImages := newSel, lastSelectedIndex := some endIndex }
    | _, _ => st

/-! ## Frame removal -/

/-- The validation failure of frame removal. -/
inductive RemoveFramesError where
  | lastFrameRemovalRejected
deriving Repr, DecidableEq

/-- Modelled from the spec: the backend `remove_images` command invoked by
`handleRemoveSelected` is not among the sources (only its caller is).  Per
the spec, `removeFrames(indices)` rejects with a validation error whenever
`indices` covers every current frame, and otherwise removes all named
frames in one atomic step. -/
def removeFrames {α : Type} (frames : List α) (indices : List Nat) :
    Except RemoveFramesError (List α) :=
  if ∀ j, j < frames.length → j ∈ indices then
    Except.error RemoveFramesError.lastFrameRemovalRejected
  else
    Except.ok ((frames.enum.filter (fun p => decide (p.1 ∉ indices))).map (fun p => p.2))

/-! ## Sample fixtures used by witnesses and counterexamples -/

/-- A one-frame indexed sample file. -/
def indexedSample : EditableStiFile :=
  { file_path := "sample8.sti", is_8bit := true, is_16bit := false
    palette := some [(0, 0, 0), (255, 0, 0), (0, 255, 0), (0, 0, 255)]
    images := [{ width := 2, height := 2, data := [0, 0, 0, 0] }]
    transparent_color := 0, flags := 0 }

/-- A one-frame packed (16-bit) sample file. -/
def packedSample : EditableStiFile :=
  { file_path := "sample16.sti", is_8bit := false, is_16bit := true
    palette := some [(255, 255, 255)]
    images := [{ width := 1, height := 1, data := [0, 0] }]
    transparent_color := 0, flags := 0 }

/-- Sample history entries. -/
def hsA : HistoryState := ⟨indexedSample, 0, 0, "A"⟩

def hsB : HistoryState := ⟨indexedSample, 0, 1, "B"⟩

def hsC : HistoryState := ⟨indexedSample, 0, 2, "C"⟩

def hsD : HistoryState := ⟨indexedSample, 0, 3, "D"⟩

/-! ## C1: snapshot truncates, appends, advances the cursor, and evicts -/

/-- C1: for every history log satisfying the log invariants (valid cursor,
length at most 50), `saveToHistory` first discards the entries strictly
after the cursor, then appends the new entry, sets the cursor to the new
last entry, and when the length then exceeds 50 evicts the oldest entry,
which shifts the cursor down by one; in particular `[A,B,C]` at cursor 2,
after an undo and a snapshot of `D`, becomes `[A,B,D]` with the cursor on
`D`. -/
theorem saveToHistory_truncate_append_evict
    (log : HistoryLog) (s A B C D : HistoryState)
    (hcursor : log.index < log.history.length)
    (hcap : log.history.length ≤ 50) :
    (saveToHistory log s).history =
      (if 50 < (log.history.take (log.index + 1) ++ [s]).length
       then (log.history.take (log.index + 1) ++ [s]).drop 1
       else log.history.take (log.index + 1) ++ [s]) ∧
    (saveToHistory log s).index = (saveToHistory log s).history.length - 1 ∧
    (saveToHistory log s).history[(saveToHistory log s).index]? = some s ∧
    (saveToHistory log s).history.length ≤ 50 ∧
    saveToHistory (handleUndo { history := [A, B, C], index := 2 }).2 D =
      { history := [A, B, D], index := 2 } := by
  have htake : (log.history.take (log.index + 1)).length = log.index + 1 := by
    rw [List.length_take]; omega
  have ht : (log.history.take (log.index + 1) ++ [s]).length = log.index + 2 := by
    rw [List.length_append, htake]; rfl
  have hex : saveToHistory (handleUndo { history := [A, B, C], index := 2 }).2 D =
      { history := [A, B, D], index := 2 } := by
    simp [handleUndo, saveToHistory]
  by_cases hlen : 50 < (log.history.take (log.index + 1) ++ [s]).length
  · -- eviction: the cursor was at 49 on a full log
    have hidx : log.index = 49 := by omega
    have hs50 : (log.history.take (log.index + 1) ++ [s])[50]? = some s := by
      rw [List.getElem?_append, htake, hidx]
      simp
    have hsave : saveToHistory log s =
        { history := (log.history.take (log.index + 1) ++ [s]).drop 1, index := 49 } := by
      unfold saveToHistory
      rw [if_pos (by omega)]
    refine ⟨by rw [hsave, if_pos hlen], ?_, ?_, ?_, hex⟩
    · rw [hsave]
      simp only [List.length_drop]
      omega
    · rw [hsave]
      simp only [List.getElem?_drop]
      rw [show 1 + 49 = 50 from rfl, hs50]
    · rw [hsave]
      simp only [List.length_drop, ht]
      omega
  · -- no eviction: append and advance the cursor
    have hsave : saveToHistory log s =
        { history := log.history.take (log.index + 1) ++ [s],
          index := (log.history.take (log.index + 1) ++ [s]).length - 1 } := by
      unfold saveToHistory
      rw [if_neg (by omega)]
    refine ⟨by rw [hsave, if_neg hlen], by rw [hsave], ?_, ?_, hex⟩
    · rw [hsave]
      simp only [ht]
      rw [show log.index + 2 - 1 = log.index + 1 from rfl,
        List.getElem?_append, htake]
      simp
    · rw [hsave]
      simp only [ht]
      omega

/-- C1 witness: the theorem applied to the singleton log at cursor 0. -/
theorem saveToHistory_truncate_append_evict_witness :
    (saveToHistory ⟨[hsA], 0⟩ hsB).history = [hsA, hsB] ∧
    (saveToHistory ⟨[hsA], 0⟩ hsB).index = 1 ∧
    (saveToHistory ⟨[hsA], 0⟩ hsB).history[(saveToHistory ⟨[hsA], 0⟩ hsB).index]? =
      some hsB ∧
    (saveToHistory ⟨[hsA], 0⟩ hsB).history.length ≤ 50 ∧
    saveToHistory (handleUndo { history := [hsA, hsB, hsC], index := 2 }).2 hsD =
      { history := [hsA, hsB, hsD], index := 2 } :=
  saveToHistory_truncate_append_evict ⟨[hsA], 0⟩ hsB hsA hsB hsC hsD
    (by decide) (by decide)

/-! ## C2: undo, redo, undo restores the first undo's state -/

/-- C2: whenever the cursor is strictly positive (and valid), undo
followed by redo followed by undo, with no intervening edit, hands the
caller exactly the history state the first undo produced. -/
theorem undo_redo_undo_roundtrip (log : HistoryLog)
    (h1 : 0 < log.index) (h2 : log.index < log.history.length) :
    (handleUndo (handleRedo (handleUndo log).2).2).1 = (handleUndo log).1 ∧
    (handleUndo log).1.isSome = true := by
  have e1 : handleUndo log = (log.history[log.index - 1]?,
      { history := log.history, index := log.index - 1 }) := by
    unfold handleUndo
    rw [if_neg (by omega)]
  have e2 : handleRedo { history := log.history, index := log.index - 1 } =
      (log.history[log.index]?, { history := log.history, index := log.index }) := by
    unfold handleRedo
    rw [if_neg (by simp only; omega)]
    simp only
    rw [Nat.sub_add_cancel h1]
  have e3 : (handleUndo { history := log.history, index := log.index }).1 =
      log.history[log.index - 1]? := by
    unfold handleUndo
    rw [if_neg (by simp only; omega)]
  refine ⟨?_, ?_⟩
  · rw [e1, e2, e3]
  · rw [e1]
    simp only [Option.isSome]
    rw [List.getElem?_eq_getElem (by omega)]

/-- C2 witness: the round trip on a concrete two-entry log at cursor 1. -/
theorem undo_redo_undo_roundtrip_witness :
    (handleUndo (handleRedo (handleUndo ⟨[hsA, hsB], 1⟩).2).2).1 =
      (handleUndo ⟨[hsA, hsB], 1⟩).1 ∧
    (handleUndo (⟨[hsA, hsB], 1⟩ : HistoryLog)).1.isSome = true :=
  undo_redo_undo_roundtrip ⟨[hsA, hsB], 1⟩ (by decide) (by decide)

/-! ## Painting helper lemmas -/

/-- `mapIdx` with an index-ignoring function is the identity. -/
theorem mapIdx_ignore_id {α : Type} (l : List α) :
    l.mapIdx (fun _ y => y) = l := by
  induction l with
  | nil => rfl
  | cons x l ih =>
    simp only [List.mapIdx_cons]
    rw [ih]

/-- The source's `images.map((img, index) => index === i ? updated : img)`
is replacement at index `i`. -/
theorem mapIdx_ite_set {α : Type} (l : List α) (i : Nat) (a : α) :
    l.mapIdx (fun j x => if j = i then a else x) = l.set i a := by
  induction l generalizing i with
  | nil => rfl
  | cons x l ih =>
    cases i with
    | zero =>
      simp only [List.mapIdx_cons, if_pos rfl, List.set]
      have h : (fun j (y : α) => if j + 1 = 0 then a else y) = fun _ y => y := by
        funext j y
        simp
      rw [h, mapIdx_ignore_id]
      simp
    | succ k =>
      have h : (fun j (y : α) => if j + 1 = k + 1 then a else y) =
          fun j y => if j = k then a else y := by
        funext j y
        simp
      simp only [List.mapIdx_cons, List.set, if_neg (Nat.succ_ne_zero k).symm]
      rw [h, ih]

/-- In-range JS assignment is `List.set`. -/
theorem jsArraySet_eq_set {l : List Nat} {i : Nat} (v : Nat) (h : i < l.length) :
    jsArraySet l i v = l.set i v := if_pos h

/-- In-range JS assignment preserves the array length. -/
theorem jsArraySet_length {l : List Nat} {i : Nat} (v : Nat) (h : i < l.length) :
    (jsArraySet l i v).length = l.length := by
  rw [jsArraySet_eq_set v h, List.length_set]

/-- The flat sample index of an in-bounds pixel is in range. -/
theorem pixel_index_lt {x y W H : Nat} (hx : x < W) (hy : y < H) :
    y * W + x < W * H := by
  have h1 : (y + 1) * W = y * W + W := by ring
  have h2 : (y + 1) * W ≤ H * W := Nat.mul_le_mul_right W hy
  have h3 : H * W = W * H := Nat.mul_comm H W
  omega

/-- The sample array `paintPixel` installs in the current frame (the value
of its `newImageData` binding, lifted out for reasoning). -/
def paintedData (sti : EditableStiFile) (currentImage : EditableImage)
    (tool : ToolType) (selectedColor x y : Nat) : List Nat :=
  if sti.is_8bit then
    let dataIndex := y * currentImage.width + x
    match tool with
    | ToolType.brush => jsArraySet currentImage.data dataIndex selectedColor
    | ToolType.eraser => jsArraySet currentImage.data dataIndex 0
    | _ => currentImage.data
  else
    let dataIndex := (y * currentImage.width + x) * 2
    match tool, sti.palette with
    | ToolType.brush, some palette =>
      if selectedColor < palette.length then
        let color := palette.getD selectedColor (0, 0, 0)
        let r := color.1 / 8
        let g := color.2.1 / 4
        let b := color.2.2 / 8
        let rgb565 := (r <<< 11) ||| (g <<< 5) ||| b
        jsArraySet (jsArraySet currentImage.data dataIndex (rgb565 &&& 0xFF))
          (dataIndex + 1) ((rgb565 >>> 8) &&& 0xFF)
      else currentImage.data
    | _, _ => currentImage.data

/-- `paintPixel` replaces exactly the current frame, installing
`paintedData` as its sample array. -/
theorem paintPixel_eq_set (sti : EditableStiFile) (i : Nat) (tool : ToolType)
    (selCol x y : Nat) (img : EditableImage) (himg : sti.images[i]? = some img) :
    paintPixel sti i tool selCol x y =
      { sti with images :=
          sti.images.set i { img with data := paintedData sti img tool selCol x y } } := by
  unfold paintPixel paintedData
  rw [himg]
  simp only [mapIdx_ite_set]

/-- Both brush and eraser preserve the sample-array length when the target
pixel is in bounds and the buffer has its invariant length. -/
theorem paintedData_length (sti : EditableStiFile) (img : EditableImage)
    (tool : ToolType) (selCol x y : Nat)
    (htool : tool = ToolType.brush ∨ tool = ToolType.eraser)
    (hx : x < img.width) (hy : y < img.height)
    (hlen : img.data.length =
      (if sti.is_8bit then 1 else 2) * (img.width * img.height)) :
    (paintedData sti img tool selCol x y).length = img.data.length := by
  have hpix : y * img.width + x < img.width * img.height := pixel_index_lt hx hy
  unfold paintedData
  by_cases h8 : sti.is_8bit
  · have hlen1 : img.data.length = img.width * img.height := by
      rw [hlen, if_pos h8, Nat.one_mul]
    rcases htool with rfl | rfl
    · rw [if_pos h8]
      exact jsArraySet_length _ (by omega)
    · rw [if_pos h8]
      exact jsArraySet_length _ (by omega)
  · have hlen2 : img.data.length = 2 * (img.width * img.height) := by
      rw [hlen, if_neg h8]
    rw [if_neg h8]
    rcases htool with rfl | rfl
    · cases hpal : sti.palette with
      | none => rfl
      | some palette =>
        by_cases hsel : selCol < palette.length
        · simp only [if_pos hsel]
          have hlow : (y * img.width + x) * 2 < img.data.length := by omega
          have hin : (y * img.width + x) * 2 + 1 < img.data.length := by omega
          rw [jsArraySet_length _ (by rw [jsArraySet_length _ hlow]; exact hin),
            jsArraySet_length _ hlow]
        · simp only [if_neg hsel]
    · rfl

/-! ## C10: a paint stroke touches only the current frame's data -/

/-- C10: a single brush or eraser paint at an in-bounds coordinate changes
at most the current frame's pixel data: every other frame, the palette, the
color-mode flags, the transparent color and the file path are unchanged,
and the painted frame keeps its width, height and data length. -/
theorem paint_touches_only_current_frame
    (sti : EditableStiFile) (i : Nat) (tool : ToolType) (selCol x y : Nat)
    (img : EditableImage) (himg : sti.images[i]? = some img)
    (htool : tool = ToolType.brush ∨ tool = ToolType.eraser)
    (hx : x < img.width) (hy : y < img.height)
    (hlen : img.data.length =
      (if sti.is_8bit then 1 else 2) * (img.width * img.height)) :
    (paintPixel sti i tool selCol x y).file_path = sti.file_path ∧
    (paintPixel sti i tool selCol x y).is_8bit = sti.is_8bit ∧
    (paintPixel sti i tool selCol x y).is_16bit = sti.is_16bit ∧
    (paintPixel sti i tool selCol x y).palette = sti.palette ∧
    (paintPixel sti i tool selCol x y).transparent_color = sti.transparent_color ∧
    (paintPixel sti i tool selCol x y).flags = sti.flags ∧
    (paintPixel sti i tool selCol x y).images.length = sti.images.length ∧
    (∀ j, j ≠ i → (paintPixel sti i tool selCol x y).images[j]? = sti.images[j]?) ∧
    (∃ img', (paintPixel sti i tool selCol x y).images[i]? = some img' ∧
      img'.width = img.width ∧ img'.height = img.height ∧
      img'.data.length = img.data.length) := by
  have hi : i < sti.images.length := by
    rcases List.getElem?_eq_some.mp himg with ⟨h, _⟩
    exact h
  rw [paintPixel_eq_set sti i tool selCol x y img himg]
  refine ⟨rfl, rfl, rfl, rfl, rfl, rfl, List.length_set .., ?_, ?_⟩
  · intro j hj
    exact List.getElem?_set_ne (fun h => hj h.symm)
  · exact ⟨_, List.getElem?_set_self hi, rfl, rfl,
      paintedData_length sti img tool selCol x y htool hx hy hlen⟩

/-- C10 witness: an eraser stroke at (0,0) of the indexed sample. -/
theorem paint_touches_only_current_frame_witness :
    (paintPixel indexedSample 0 ToolType.eraser 1 0 0).file_path =
      indexedSample.file_path ∧
    (paintPixel indexedSample 0 ToolType.eraser 1 0 0).is_8bit =
      indexedSample.is_8bit ∧
    (paintPixel indexedSample 0 ToolType.eraser 1 0 0).is_16bit =
      indexedSample.is_16bit ∧
    (paintPixel indexedSample 0 ToolType.eraser 1 0 0).palette =
      indexedSample.palette ∧
    (paintPixel indexedSample 0 ToolType.eraser 1 0 0).transparent_color =
      indexedSample.transparent_color ∧
    (paintPixel indexedSample 0 ToolType.eraser 1 0 0).flags =
      indexedSample.flags ∧
    (paintPixel indexedSample 0 ToolType.eraser 1 0 0).images.length =
      indexedSample.images.length ∧
    (∀ j, j ≠ 0 →
      (paintPixel indexedSample 0 ToolType.eraser 1 0 0).images[j]? =
        indexedSample.images[j]?) ∧
    (∃ img', (paintPixel indexedSample 0 ToolType.eraser 1 0 0).images[0]? =
        some img' ∧
      img'.width = (indexedSample.images.getD 0 dummyImage).width ∧
      img'.height = (indexedSample.images.getD 0 dummyImage).height ∧
      img'.data.length = (indexedSample.images.getD 0 dummyImage).data.length) :=
  paint_touches_only_current_frame indexedSample 0 ToolType.eraser 1 0 0
    (indexedSample.images.getD 0 dummyImage) (by decide) (Or.inr rfl)
    (by decide) (by decide) (by decide)

/-! ## C3: paint then eyedropper -/

/-- C3 counterexample: in packed mode the eyedropper branch of
`handleMouseDown` does nothing, so after painting the packed sample white
at (0,0) (sample value 65535) the selected color is still the previous one
(0), not the painted value. -/
theorem paint_eyedropper_packed_counterexample :
    eyedropperPick (paintPixel packedSample 0 ToolType.brush 0 0 0) 0 0 0 0 = 0 ∧
    ((paintPixel packedSample 0 ToolType.brush 0 0 0).images.getD 0 dummyImage).data.getD 0 0 +
      256 * ((paintPixel packedSample 0 ToolType.brush 0 0 0).images.getD 0 dummyImage).data.getD 1 0 =
      65535 ∧
    (0 : Nat) ≠ 65535 := by
  refine ⟨rfl, ?_, by decide⟩
  rfl

/-- C3 amended: for every in-bounds coordinate, in indexed mode painting
with the brush and then applying the eyedropper at the same coordinate
returns the painted palette index as the new selected color; in packed
mode the eyedropper leaves the selected color unchanged. -/
theorem paint_then_eyedropper
    (sti : EditableStiFile) (i : Nat) (selCol x y c : Nat)
    (img : EditableImage) (himg : sti.images[i]? = some img)
    (hx : x < img.width) (hy : y < img.height) :
    (sti.is_8bit = true → img.data.length = img.width * img.height →
      eyedropperPick (paintPixel sti i ToolType.brush selCol x y) i x y c = selCol) ∧
    (sti.is_8bit = false →
      eyedropperPick (paintPixel sti i ToolType.brush selCol x y) i x y c = c) := by
  have hi : i < sti.images.length := by
    rcases List.getElem?_eq_some.mp himg with ⟨h, _⟩
    exact h
  rw [paintPixel_eq_set sti i ToolType.brush selCol x y img himg]
  constructor
  · intro h8 hlen
    have hidx : y * img.width + x < img.data.length := by
      rw [hlen]
      exact pixel_index_lt hx hy
    unfold eyedropperPick
    simp only [h8, if_true]
    rw [List.getElem?_set_self hi]
    simp only
    unfold paintedData
    simp only [h8, if_true]
    rw [jsArraySet_eq_set selCol hidx, List.getD_eq_getElem?_getD,
      List.getElem?_set_self hidx]
    rfl
  · intro h8
    unfold eyedropperPick
    simp only [h8]
    simp

/-- C3 witness (for the amended claim): brush index 2 then eyedropper at
(1,1) of the indexed sample returns 2; and on the packed sample the
eyedropper returns the unchanged selected color. -/
theorem paint_then_eyedropper_witness :
    (indexedSample.is_8bit = true →
      (indexedSample.images.getD 0 dummyImage).data.length =
        (indexedSample.images.getD 0 dummyImage).width *
          (indexedSample.images.getD 0 dummyImage).height →
      eyedropperPick (paintPixel indexedSample 0 ToolType.brush 2 1 1) 0 1 1 3 = 2) ∧
    (indexedSample.is_8bit = false →
      eyedropperPick (paintPixel indexedSample 0 ToolType.brush 2 1 1) 0 1 1 3 = 3) :=
  paint_then_eyedropper indexedSample 0 2 1 1 3
    (indexedSample.images.getD 0 dummyImage) (by decide) (by decide) (by decide)

/-! ## C5: packed-mode brush writes the 5-6-5 value little-endian -/

/-- A 5-6-5 packed value assembled with shifts and ors is the corresponding
weighted sum when the channels are in range. -/
theorem rgb565_decompose (a b c : Nat) (hb : b < 64) (hc : c < 32) :
    ((a <<< 11) ||| (b <<< 5) ||| c) = a * 2048 + b * 32 + c := by
  have hc5 : c < 2 ^ 5 := hc
  have h1 : (b <<< 5) ||| c = 2 ^ 5 * b + c := by
    rw [Nat.shiftLeft_eq, Nat.mul_comm, ← Nat.mul_add_lt_is_or hc5 b]
  have hlt : 2 ^ 5 * b + c < 2 ^ 11 := by omega
  calc (a <<< 11) ||| (b <<< 5) ||| c
      = (a <<< 11) ||| ((b <<< 5) ||| c) := Nat.or_assoc ..
    _ = (a <<< 11) ||| (2 ^ 5 * b + c) := by rw [h1]
    _ = 2 ^ 11 * a + (2 ^ 5 * b + c) := by
        rw [Nat.shiftLeft_eq, Nat.mul_comm, ← Nat.mul_add_lt_is_or hlt a]
    _ = a * 2048 + b * 32 + c := by ring

/-- C5: in packed mode, an in-bounds brush paint of the selected RGB triple
(r,g,b) stores the 5-6-5 value with channels r>>3, g>>2, b>>3 as two bytes
in little-endian order: the low byte at sample offset 2*(y*W+x) and the
high byte at the following offset. -/
theorem packed_brush_writes_rgb565_bytes
    (sti : EditableStiFile) (i : Nat) (selCol x y : Nat)
    (img : EditableImage) (pal : List (Nat × Nat × Nat))
    (himg : sti.images[i]? = some img)
    (h8 : sti.is_8bit = false)
    (hpal : sti.palette = some pal)
    (hsel : selCol < pal.length)
    (hx : x < img.width) (hy : y < img.height)
    (hlen : img.data.length = 2 * (img.width * img.height))
    (hr : (pal.getD selCol (0, 0, 0)).1 ≤ 255)
    (hg : (pal.getD selCol (0, 0, 0)).2.1 ≤ 255)
    (hb : (pal.getD selCol (0, 0, 0)).2.2 ≤ 255) :
    ∃ img', (paintPixel sti i ToolType.brush selCol x y).images[i]? = some img' ∧
      img'.data[2 * (y * img.width + x)]? =
        some (((pal.getD selCol (0, 0, 0)).1 / 8 * 2048 +
          (pal.getD selCol (0, 0, 0)).2.1 / 4 * 32 +
          (pal.getD selCol (0, 0, 0)).2.2 / 8) % 256) ∧
      img'.data[2 * (y * img.width + x) + 1]? =
        some (((pal.getD selCol (0, 0, 0)).1 / 8 * 2048 +
          (pal.getD selCol (0, 0, 0)).2.1 / 4 * 32 +
          (pal.getD selCol (0, 0, 0)).2.2 / 8) / 256) := by
  have hi : i < sti.images.length := by
    rcases List.getElem?_eq_some.mp himg with ⟨h, _⟩
    exact h
  have hpix : y * img.width + x < img.width * img.height := pixel_index_lt hx hy
  have hlow : (y * img.width + x) * 2 < img.data.length := by omega
  have hhigh : (y * img.width + x) * 2 + 1 < img.data.length := by omega
  have ha : (pal.getD selCol (0, 0, 0)).1 / 8 < 32 := by omega
  have hbb : (pal.getD selCol (0, 0, 0)).2.1 / 4 < 64 := by omega
  have hcc : (pal.getD selCol (0, 0, 0)).2.2 / 8 < 32 := by omega
  have hv := rgb565_decompose ((pal.getD selCol (0, 0, 0)).1 / 8)
    ((pal.getD selCol (0, 0, 0)).2.1 / 4) ((pal.getD selCol (0, 0, 0)).2.2 / 8)
    hbb hcc
  have hvlt : (pal.getD selCol (0, 0, 0)).1 / 8 * 2048 +
      (pal.getD selCol (0, 0, 0)).2.1 / 4 * 32 +
      (pal.getD selCol (0, 0, 0)).2.2 / 8 < 65536 := by omega
  rw [paintPixel_eq_set sti i ToolType.brush selCol x y img himg]
  refine ⟨_, List.getElem?_set_self hi, ?_, ?_⟩
  all_goals
    simp only
    unfold paintedData
    simp only [h8, Bool.false_eq_true, if_false, hpal]
    simp only [if_pos hsel]
    rw [jsArraySet_eq_set _ (by rw [jsArraySet_length _ hlow]; exact hhigh),
      jsArraySet_eq_set _ hlow]
    rw [show 2 * (y * img.width + x) = (y * img.width + x) * 2 from Nat.mul_comm ..]
  · rw [List.getElem?_set_ne (by omega), List.getElem?_set_self hlow]
    congr 1
    rw [hv, show (0xFF : Nat) = 2 ^ 8 - 1 from rfl,
      Nat.and_pow_two_sub_one_eq_mod]
  · rw [List.getElem?_set_self (by rw [List.length_set]; exact hhigh)]
    congr 1
    rw [Nat.shiftRight_eq_div_pow, hv, show (0xFF : Nat) = 2 ^ 8 - 1 from rfl,
      Nat.and_pow_two_sub_one_eq_mod]
    exact Nat.mod_eq_of_lt (by omega)

/-- C5 witness: painting white on the packed sample stores bytes 255, 255
at offsets 0 and 1. -/
theorem packed_brush_writes_rgb565_bytes_witness :
    ∃ img', (paintPixel packedSample 0 ToolType.brush 0 0 0).images[0]? = some img' ∧
      img'.data[0]? = some 255 ∧
      img'.data[1]? = some 255 :=
  packed_brush_writes_rgb565_bytes packedSample 0 0 0 0
    (packedSample.images.getD 0 dummyImage) [(255, 255, 255)]
    (by decide) (by decide) (by decide) (by decide) (by decide) (by decide)
    (by decide) (by decide) (by decide) (by decide)

/-! ## C4: out-of-bounds paint requests are silent no-ops -/

/-- C4: whenever the pixel coordinate computed from a mouse position falls
outside the current frame, the mouse-move paint path leaves the editable
file completely unchanged (every frame's data included) — the coordinate
guard returns `null` and nothing is written. -/
theorem out_of_bounds_paint_noop
    (sti : EditableStiFile) (i : Nat) (tool : ToolType) (selCol : Nat)
    (zoom panX panY canvasW canvasH canvasX canvasY : Int)
    (img : EditableImage) (himg : sti.images[i]? = some img)
    (hout :
      (computePixel img.width img.height zoom panX panY canvasW canvasH canvasX canvasY).1 < 0 ∨
      (img.width : Int) ≤
        (computePixel img.width img.height zoom panX panY canvasW canvasH canvasX canvasY).1 ∨
      (computePixel img.width img.height zoom panX panY canvasW canvasH canvasX canvasY).2 < 0 ∨
      (img.height : Int) ≤
        (computePixel img.width img.height zoom panX panY canvasW canvasH canvasX canvasY).2) :
    handleMouseMovePaint sti i tool selCol zoom panX panY canvasW canvasH canvasX canvasY =
      sti := by
  unfold handleMouseMovePaint
  rw [himg]
  simp only
  unfold getPixelCoordinates
  rw [if_neg ?hc]
  case hc =>
    rintro ⟨h1, h2, h3, h4⟩
    rcases hout with h | h | h | h <;> omega

/-- C4 witness: a mouse position far right of the 2×2 frame paints
nothing. -/
theorem out_of_bounds_paint_noop_witness :
    handleMouseMovePaint indexedSample 0 ToolType.brush 1 1 0 0 2 2 10 0 =
      indexedSample :=
  out_of_bounds_paint_noop indexedSample 0 ToolType.brush 1 1 0 0 2 2 10 0
    (indexedSample.images.getD 0 dummyImage) (by decide)
    (Or.inr (Or.inl (by decide)))

/-! ## Staging lemmas -/

/-- `arraysEqual` is list equality. -/
theorem arraysEqual_iff (a b : List Nat) : arraysEqual a b = true ↔ a = b := by
  unfold arraysEqual
  rw [Bool.and_eq_true, beq_iff_eq, List.all_eq_true]
  constructor
  · rintro ⟨hlen, hall⟩
    apply List.ext_getElem?
    intro n
    by_cases hn : n < a.length
    · have hmem : (n, a[n]) ∈ a.enum := by
        rw [List.mk_mem_enum_iff_getElem?]
        exact (List.getElem?_eq_getElem hn)
      have := hall _ hmem
      rw [beq_iff_eq] at this
      rw [List.getElem?_eq_getElem hn, this]
    · rw [List.getElem?_eq_none (by omega), List.getElem?_eq_none (by omega)]
  · rintro rfl
    refine ⟨rfl, ?_⟩
    intro p hp
    rw [List.mk_mem_enum_iff_getElem?] at hp
    rw [beq_iff_eq]
    exact hp

/-! ## C7: stage does not validate permutations -/

/-- C7 counterexample: staging `[0,0]` — not a permutation of `0..1` — over
the committed order `[0,1]` is not rejected: the staged order becomes
`[0,0]`, so a non-permutation input does change the staged order. -/
theorem stage_accepts_non_permutation :
    ¬ List.Perm [0, 0] (List.range 2) ∧
    (applyStagedReorder
        { authoritativeOrder := [0, 1], originalOrder := [0, 1],
          stagedOrder := [0, 1], hasUnsavedChanges := false }
        [0, 0]).stagedOrder = [0, 0] ∧
    ([0, 0] : List Nat) ≠ [0, 1] := by
  refine ⟨by decide, rfl, by decide⟩

/-- C7 amended: `applyStagedReorder` performs no permutation validation; it
unconditionally replaces the staged order with the given array (permutation
or not) and sets the dirty flag if and only if the new staged order differs
from the last-committed order; the last-committed order itself is
untouched. -/
theorem stage_replaces_and_flags_dirty (s : ReorderSession) (newOrder : List Nat) :
    (applyStagedReorder s newOrder).stagedOrder = newOrder ∧
    (applyStagedReorder s newOrder).originalOrder = s.originalOrder ∧
    ((applyStagedReorder s newOrder).hasUnsavedChanges = true ↔
      newOrder ≠ s.originalOrder) := by
  refine ⟨rfl, rfl, ?_⟩
  show (!arraysEqual newOrder s.originalOrder) = true ↔ newOrder ≠ s.originalOrder
  rw [Bool.not_eq_true']
  constructor
  · intro h hcon
    rw [← arraysEqual_iff newOrder s.originalOrder] at hcon
    rw [h] at hcon
    exact Bool.false_ne_true hcon
  · intro h
    cases he : arraysEqual newOrder s.originalOrder with
    | false => rfl
    | true => exact absurd ((arraysEqual_iff _ _).mp he) h

/-! ## C9: cancel restores the committed order and touches nothing else -/

/-- C9: `handleCancelChanges` resets the staged order to the last-committed
order and clears the dirty flag, and the authoritative frame order is left
unchanged — no reorder is applied or persisted by a cancellation. -/
theorem cancel_resets_staging (s : ReorderSession) :
    (handleCancelChanges s).stagedOrder = s.originalOrder ∧
    (handleCancelChanges s).hasUnsavedChanges = false ∧
    (handleCancelChanges s).authoritativeOrder = s.authoritativeOrder ∧
    (handleCancelChanges s).originalOrder = s.originalOrder :=
  ⟨rfl, rfl, rfl, rfl⟩

/-! ## Range-selection lemmas -/

/-- The original indices of the display order are the staged ids that have
metadata, in staged order. -/
theorem displayOrder_map_index (staged : List Nat) (meta : List ImageMetadata) :
    (getCurrentDisplayOrder staged meta).map (fun img => img.index) =
      staged.filter (fun o => (meta.find? (fun img => img.index == o)).isSome) := by
  induction staged with
  | nil => rfl
  | cons o rest ih =>
    unfold getCurrentDisplayOrder
    simp only [List.map_cons, List.filterMap_cons, List.filter_cons]
    cases hfind : meta.find? (fun img => img.index == o) with
    | none =>
      simp only [id, Option.isSome_none, Bool.false_eq_true, if_false]
      exact ih
    | some m =>
      have hm : m.index = o := by
        have := List.find?_some hfind
        exact beq_iff_eq.mp this
      simp only [id, Option.isSome_some, if_true, List.map_cons, hm]
      unfold getCurrentDisplayOrder at ih
      rw [ih]

/-- When the staged order has no duplicates, neither has the display
order's index sequence. -/
theorem displayOrder_index_nodup (staged : List Nat) (meta : List ImageMetadata)
    (h : staged.Nodup) :
    ((getCurrentDisplayOrder staged meta).map (fun img => img.index)).Nodup := by
  rw [displayOrder_map_index]
  exact h.filter _

/-- The fold of `handleRangeSelection`: toggling every not-yet-selected
index of a duplicate-free list into the selection yields exactly the union,
membership-wise. -/
theorem foldl_range_toggle_mem (orig : List Nat) (idxs : List Nat) :
    ∀ acc : List Nat, idxs.Nodup →
      (∀ j, j ∈ orig → j ∈ acc) →
      (∀ j, j ∈ idxs → j ∈ acc → j ∈ orig) →
      ∀ j, (j ∈ idxs.foldl
          (fun a i => if i ∈ orig then a else onImageToggleSelect a i) acc ↔
        j ∈ acc ∨ (j ∈ idxs ∧ j ∉ orig)) := by
  induction idxs with
  | nil =>
    intro acc _ _ _ j
    simp
  | cons i rest ih =>
    intro acc hnd hsup hnew j
    simp only [List.foldl_cons]
    by_cases hio : i ∈ orig
    · rw [if_pos hio]
      rw [ih acc hnd.of_cons hsup (fun j hj => hnew j (List.mem_cons_of_mem _ hj)) j]
      constructor
      · rintro (h | ⟨h1, h2⟩)
        · exact Or.inl h
        · exact Or.inr ⟨List.mem_cons_of_mem _ h1, h2⟩
      · rintro (h | ⟨h1, h2⟩)
        · exact Or.inl h
        · rcases List.mem_cons.mp h1 with rfl | h1
          · exact absurd hio h2
          · exact Or.inr ⟨h1, h2⟩
    · rw [if_neg hio]
      have hnotacc : i ∉ acc := fun hacc => hio (hnew i (List.mem_cons_self ..) hacc)
      have htog : onImageToggleSelect acc i = acc ++ [i] := by
        unfold onImageToggleSelect
        rw [if_neg hnotacc]
      have hirest : i ∉ rest := (List.nodup_cons.mp hnd).1
      rw [htog, ih (acc ++ [i]) hnd.of_cons
        (fun j hj => List.mem_append_left _ (hsup j hj))
        (fun j hjrest hjacc => by
          rcases List.mem_append.mp hjacc with h | h
          · exact hnew j (List.mem_cons_of_mem _ hjrest) h
          · have hj : j = i := by simpa using h
            subst hj
            exact absurd hjrest hirest) j]
      constructor
      · rintro (h | ⟨h1, h2⟩)
        · rcases List.mem_append.mp h with h | h
          · exact Or.inl h
          · have hj : j = i := by simpa using h
            subst hj
            exact Or.inr ⟨List.mem_cons_self .., hio⟩
        · exact Or.inr ⟨List.mem_cons_of_mem _ h1, h2⟩
      · rintro (h | ⟨h1, h2⟩)
        · exact Or.inl (List.mem_append_left _ h)
        · rcases List.mem_cons.mp h1 with rfl | h1
          · exact Or.inl (List.mem_append_right _ (by simp))
          · exact Or.inr ⟨h1, h2⟩

/-! ## C8: range selection spans display positions and only adds -/

/-- C8: with an anchor set, a range selection to a clicked frame resolves
both to positions in the currently displayed (staged) order and adds to the
selection exactly the frames occupying the inclusive span of display
positions between them; it never removes an already-selected index, and it
is a no-op when no anchor exists. -/
theorem range_selection_spans_display_positions
    (staged : List Nat) (meta : List ImageMetadata) (st : SelectionState)
    (endIdx a pa pe : Nat)
    (hanchor : st.lastSelectedIndex = some a)
    (hnd : staged.Nodup)
    (hpa : (getCurrentDisplayOrder staged meta).findIdx?
      (fun img => img.index == a) = some pa)
    (hpe : (getCurrentDisplayOrder staged meta).findIdx?
      (fun img => img.index == endIdx) = some pe) :
    (∀ j, j ∈ (handleRangeSelection staged meta st endIdx).selectedImages ↔
      j ∈ st.selectedImages ∨
      j ∈ (((getCurrentDisplayOrder staged meta).drop (min pa pe)).take
            (max pa pe + 1 - min pa pe)).map (fun img => img.index)) ∧
    (∀ j, j ∈ st.selectedImages →
      j ∈ (handleRangeSelection staged meta st endIdx).selectedImages) ∧
    (∀ st' : SelectionState, st'.lastSelectedIndex = none →
      handleRangeSelection staged meta st' endIdx = st') := by
  have hnodup : ((((getCurrentDisplayOrder staged meta).drop (min pa pe)).take
      (max pa pe + 1 - min pa pe)).map (fun img => img.index)).Nodup := by
    rw [List.map_take, List.map_drop]
    exact ((List.take_sublist _ _).trans (List.drop_sublist _ _)).nodup
      (displayOrder_index_nodup staged meta hnd)
  have hmem : ∀ j, j ∈ (handleRangeSelection staged meta st endIdx).selectedImages ↔
      j ∈ st.selectedImages ∨
      (j ∈ (((getCurrentDisplayOrder staged meta).drop (min pa pe)).take
            (max pa pe + 1 - min pa pe)).map (fun img => img.index) ∧
        j ∉ st.selectedImages) := by
    intro j
    unfold handleRangeSelection
    rw [hanchor]
    simp only
    rw [hpa, hpe]
    simp only
    exact foldl_range_toggle_mem st.selectedImages _ st.selectedImages hnodup
      (fun _ h => h) (fun _ _ h => h) j
  refine ⟨fun j => (hmem j).trans (by tauto),
    fun j hj => (hmem j).mpr (Or.inl hj), ?_⟩
  intro st' h
  unfold handleRangeSelection
  rw [h]

/-- The metadata rows of a three-frame file. -/
def metaSample : List ImageMetadata :=
  [{ index := 0, width := 4, height := 4 },
   { index := 1, width := 4, height := 4 },
   { index := 2, width := 4, height := 4 }]

/-- C8 witness: staged order [2,0,1], anchor 2 (display position 0),
click 1 (display position 2): the whole display span is added to the
existing selection [5]. -/
theorem range_selection_spans_display_positions_witness :
    (∀ j, j ∈ (handleRangeSelection [2, 0, 1] metaSample
        ⟨[5], some 2⟩ 1).selectedImages ↔
      j ∈ ([5] : List Nat) ∨
      j ∈ (((getCurrentDisplayOrder [2, 0, 1] metaSample).drop (min 0 2)).take
            (max 0 2 + 1 - min 0 2)).map (fun img => img.index)) ∧
    (∀ j, j ∈ ([5] : List Nat) →
      j ∈ (handleRangeSelection [2, 0, 1] metaSample ⟨[5], some 2⟩ 1).selectedImages) ∧
    (∀ st' : SelectionState, st'.lastSelectedIndex = none →
      handleRangeSelection [2, 0, 1] metaSample st' 1 = st') :=
  range_selection_spans_display_positions [2, 0, 1] metaSample ⟨[5], some 2⟩ 1 2 0 2
    (by decide) (by decide) (by decide) (by decide)

/-! ## Removal counting lemmas -/

/-- Counting membership in `a :: ind` splits into the count of `a` and
membership in `ind`, when `a` is not itself in `ind`. -/
theorem countP_mem_cons_of_not_mem (a : Nat) (ind : List Nat) (hna : a ∉ ind)
    (l : List Nat) :
    l.countP (fun j => decide (j ∈ a :: ind)) =
      l.count a + l.countP (fun j => decide (j ∈ ind)) := by
  induction l with
  | nil => rfl
  | cons x l ih =>
    rw [List.countP_cons, List.countP_cons, List.count_cons, ih]
    by_cases hxa : x = a
    · subst hxa
      have h1 : decide (x ∈ x :: ind) = true := by simp
      have h2 : decide (x ∈ ind) = false := by simpa using hna
      rw [h1, h2]
      simp
      omega
    · have h3 : decide (x ∈ a :: ind) = decide (x ∈ ind) := by
        simp [List.mem_cons, hxa]
      rw [h3]
      have h4 : (x == a) = false := by simpa using hxa
      rw [h4]
      simp only [if_pos, Bool.false_eq_true, if_false]
      omega

/-- A duplicate-free index list contained in `0..n-1` is counted exactly
once per element by `range n`. -/
theorem countP_mem_range (ind : List Nat) (n : Nat) (hnd : ind.Nodup)
    (hsub : ∀ j ∈ ind, j < n) :
    (List.range n).countP (fun j => decide (j ∈ ind)) = ind.length := by
  induction ind with
  | nil => simp
  | cons a rest ih =>
    have hna : a ∉ rest := (List.nodup_cons.mp hnd).1
    rw [countP_mem_cons_of_not_mem a rest hna]
    rw [ih (List.nodup_cons.mp hnd).2 (fun j hj => hsub j (List.mem_cons_of_mem _ hj))]
    have hcount : (List.range n).count a = 1 :=
      List.count_eq_one_of_mem (List.nodup_range n)
        (List.mem_range.mpr (hsub a (List.mem_cons_self ..)))
    rw [hcount, List.length_cons]
    omega

/-- Membership and non-membership counts of any list partition its
length. -/
theorem countP_mem_add_not_mem (ind : List Nat) (l : List Nat) :
    l.countP (fun j => decide (j ∉ ind)) + l.countP (fun j => decide (j ∈ ind)) =
      l.length := by
  induction l with
  | nil => rfl
  | cons x l ih =>
    rw [List.countP_cons, List.countP_cons, List.length_cons]
    by_cases hx : x ∈ ind
    · have h1 : decide (x ∈ ind) = true := by simpa using hx
      have h2 : decide (x ∉ ind) = false := by simpa using hx
      rw [h1, h2]
      simp only [if_pos, Bool.false_eq_true, if_false]
      omega
    · have h1 : decide (x ∈ ind) = false := by simpa using hx
      have h2 : decide (x ∉ ind) = true := by simpa using hx
      rw [h1, h2]
      simp only [if_pos, Bool.false_eq_true, if_false]
      omega

/-! ## C6: removeFrames rejects covering sets and removes proper subsets -/

/-- C6: for every frame list and duplicate-free set of valid indices,
`removeFrames` rejects with a validation error (removing nothing) whenever
the indices cover every current frame, and on any proper subset succeeds in
one atomic step with the new frame count equal to the original count minus
the number of removed frames — hence at least one frame always remains. -/
theorem removeFrames_spec {α : Type} (frames : List α) (indices : List Nat)
    (hnd : indices.Nodup) (hsub : ∀ j ∈ indices, j < frames.length) :
    ((∀ j, j < frames.length → j ∈ indices) →
      removeFrames frames indices =
        Except.error RemoveFramesError.lastFrameRemovalRejected) ∧
    (¬ (∀ j, j < frames.length → j ∈ indices) →
      ∃ rest, removeFrames frames indices = Except.ok rest ∧
        rest.length = frames.length - indices.length ∧ 1 ≤ rest.length) := by
  constructor
  · intro hcover
    unfold removeFrames
    rw [if_pos hcover]
  · intro hncover
    unfold removeFrames
    rw [if_neg hncover]
    have hlen : ((frames.enum.filter (fun p => decide (p.1 ∉ indices))).map
        (fun p => p.2)).length =
        (List.range frames.length).countP (fun j => decide (j ∉ indices)) := by
      rw [List.length_map, ← List.countP_eq_length_filter]
      have h1 : frames.enum.countP (fun p => decide (p.1 ∉ indices)) =
          (frames.enum.map Prod.fst).countP (fun j => decide (j ∉ indices)) := by
        rw [List.countP_map]
        rfl
      rw [h1, List.enum_map_fst]
    have h2 := countP_mem_add_not_mem indices (List.range frames.length)
    have h3 := countP_mem_range indices frames.length hnd hsub
    rw [List.length_range] at h2
    push_neg at hncover
    obtain ⟨j, hj, hjnot⟩ := hncover
    have h4 : 0 < (List.range frames.length).countP (fun j => decide (j ∉ indices)) := by
      rw [List.countP_pos_iff]
      exact ⟨j, List.mem_range.mpr hj, by simpa using hjnot⟩
    exact ⟨_, rfl, by omega, by omega⟩

/-- C6 witness: removing index 1 from a three-frame list keeps two frames;
covering all three indices is rejected. -/
theorem removeFrames_spec_witness :
    ((∀ j, j < 3 → j ∈ ([1] : List Nat)) →
      removeFrames [10, 20, 30] [1] =
        Except.error RemoveFramesError.lastFrameRemovalRejected) ∧
    (¬ (∀ j, j < 3 → j ∈ ([1] : List Nat)) →
      ∃ rest, removeFrames [10, 20, 30] [1] = Except.ok rest ∧
        rest.length = 3 - 1 ∧ 1 ≤ rest.length) :=
  removeFrames_spec [10, 20, 30] [1] (by decide) (by decide)
